import Mathlib

/-!
Verification development for the Food Extraction & Matching Engine of the
HealthAnalyzer repository (`src/clean_food_matcher.py`, class `CleanFoodMatcher`).

Strings are modelled as `List Char` (`Str`), Python floats as `ℚ`.  The
reference table (`self.db`, a pandas data frame) is modelled as a `List Row`
in row order.  Python dictionaries are modelled as functions
`Str → Option Str` updated functionally, which matches dict insert/lookup
semantics exactly.  The regular-expression operations used by the source
(`re.sub` with word-boundary alternations, `re.split` on a character class,
`re.search` with the five fixed quantity patterns, and
`difflib.SequenceMatcher.ratio`) are embedded character by character below,
following Python's leftmost-match and greedy/backtracking semantics for these
specific patterns.
-/

/-- Strings of the embedded program: Python `str` as a list of characters. -/
abbrev Str := List Char

/-- Convert a Lean string literal to the embedded representation. -/
def chars (s : String) : Str := s.toList

/-- Python whitespace (`\s`, and what `str.strip`/`str.split` strip): space,
tab, newline, carriage return, vertical tab, form feed. -/
def isWs (c : Char) : Bool :=
  c = ' ' || c = '\t' || c = '\n' || c = '\r' || c = '\x0b' || c = '\x0c'

/-- Python regex word character `\w` (ASCII fragment): letters, digits, `_`. -/
def isWordChar (c : Char) : Bool := c.isAlphanum || c = '_'

/-- `str.lower()` (ASCII). -/
def lowerStr (s : Str) : Str := s.map Char.toLower

/-- `str.strip()`: remove leading and trailing whitespace. -/
def strip (s : Str) : Str :=
  ((s.dropWhile isWs).reverse.dropWhile isWs).reverse

/-- `str.split()` with no argument: split on whitespace runs, dropping empty
pieces.  Accumulator holds the current word reversed. -/
def splitWsAcc : Str → Str → List Str
  | acc, [] => if acc = [] then [] else [acc.reverse]
  | acc, c :: t =>
    if isWs c then
      if acc = [] then splitWsAcc [] t else acc.reverse :: splitWsAcc [] t
    else splitWsAcc (c :: acc) t

/-- `str.split()` with no argument. -/
def splitWs (s : Str) : List Str := splitWsAcc [] s

/-- Rejoin words with single spaces: the effect of
`re.sub(r'\s+', ' ', s).strip()` in the source. -/
def joinWords (l : List Str) : Str := List.intercalate (chars " ") l

/-- `re.split(r'[\n,.]', s)`: split at every occurrence of one of the three
delimiter characters, keeping empty pieces. -/
def splitDelimsAcc : Str → Str → List Str
  | acc, [] => [acc.reverse]
  | acc, c :: t =>
    if c = '\n' || c = ',' || c = '.' then acc.reverse :: splitDelimsAcc [] t
    else splitDelimsAcc (c :: acc) t

/-- `re.split(r'[\n,.]', s)`. -/
def splitDelims (s : Str) : List Str := splitDelimsAcc [] s

/-- One reference-table row (`self.db`): canonical display name and per-100g
nutrient values. -/
structure Row where
  display_name : Str
  calories_per_100g : ℚ
  protein_g : ℚ
  carbs_g : ℚ
  fat_g : ℚ
deriving DecidableEq

/-- One extracted food dict produced by `extract_foods_with_quantities`:
keys `food`, `quantity`, `unit`, `original_text`. -/
structure Mention where
  food : Str
  quantity : ℚ
  unit : Str
  original_text : Str
deriving DecidableEq

/-- One output dict of `get_nutrition_data`.  The source renders the quantity
as the display string `f"{quantity} {unit}"`; we keep the pair
(quantity, unit) instead of the formatted text. -/
structure NutRecord where
  food : Str
  quantity : ℚ × Str
  calories : ℚ
  protein : ℚ
  carbs : ℚ
  fat : ℚ
deriving DecidableEq

/-- The empty Python dict. -/
def emptyDict : Str → Option Str := fun _ => none

/-- Python dict assignment `d[k] = v`. -/
def dset (m : Str → Option Str) (k v : Str) : Str → Option Str :=
  fun x => if x = k then some v else m x


/-! ### Kernel-evaluable rational arithmetic

Python float arithmetic is modelled by exact rational arithmetic.  The
library's `Rat.add`/`Rat.mul`/... are irreducible for the evaluator, so the
embedding uses its own cross-multiplication forms built on `Rat.divInt`
(which evaluates); the bridging lemmas identify them with the field
operations of `ℚ` for symbolic reasoning. -/

/-- Rational addition via cross multiplication. -/
def qadd (a b : ℚ) : ℚ :=
  Rat.divInt (a.num * b.den + b.num * a.den) (a.den * b.den)

/-- Rational multiplication via cross multiplication. -/
def qmul (a b : ℚ) : ℚ := Rat.divInt (a.num * b.num) (a.den * b.den)

/-- Rational subtraction via cross multiplication. -/
def qsub (a b : ℚ) : ℚ :=
  Rat.divInt (a.num * b.den - b.num * a.den) (a.den * b.den)

/-- Rational division via cross multiplication (0 when dividing by 0, as for
`ℚ`). -/
def qdiv (a b : ℚ) : ℚ := Rat.divInt (a.num * b.den) (a.den * b.num)

theorem qmul_eq (a b : ℚ) : qmul a b = a * b := by
  rw [qmul, Rat.divInt_eq_div]
  have ha : ((a.den : ℚ)) ≠ 0 := Nat.cast_ne_zero.mpr a.den_nz
  have hb : ((b.den : ℚ)) ≠ 0 := Nat.cast_ne_zero.mpr b.den_nz
  conv_rhs => rw [← Rat.num_div_den a, ← Rat.num_div_den b]
  push_cast
  field_simp

theorem qadd_eq (a b : ℚ) : qadd a b = a + b := by
  rw [qadd, Rat.divInt_eq_div]
  have ha : ((a.den : ℚ)) ≠ 0 := Nat.cast_ne_zero.mpr a.den_nz
  have hb : ((b.den : ℚ)) ≠ 0 := Nat.cast_ne_zero.mpr b.den_nz
  conv_rhs => rw [← Rat.num_div_den a, ← Rat.num_div_den b]
  push_cast
  field_simp

theorem qsub_eq (a b : ℚ) : qsub a b = a - b := by
  rw [qsub, Rat.divInt_eq_div]
  have ha : ((a.den : ℚ)) ≠ 0 := Nat.cast_ne_zero.mpr a.den_nz
  have hb : ((b.den : ℚ)) ≠ 0 := Nat.cast_ne_zero.mpr b.den_nz
  conv_rhs => rw [← Rat.num_div_den a, ← Rat.num_div_den b]
  push_cast
  field_simp
  ring

theorem qdiv_eq (a b : ℚ) : qdiv a b = a / b := by
  by_cases hb : b = 0
  · subst hb
    simp [qdiv]
  · rw [qdiv, Rat.divInt_eq_div]
    have ha : ((a.den : ℚ)) ≠ 0 := Nat.cast_ne_zero.mpr a.den_nz
    have hbd : ((b.den : ℚ)) ≠ 0 := Nat.cast_ne_zero.mpr b.den_nz
    have hbn : ((b.num : ℚ)) ≠ 0 := by exact_mod_cast Rat.num_ne_zero.mpr hb
    conv_rhs => rw [← Rat.num_div_den a, ← Rat.num_div_den b]
    push_cast
    field_simp

/-! ### `re.sub` with word-boundary alternations

`re.sub(r'\b(w1|w2|...)\b', repl, s)` scans left to right; at each position it
tries the alternatives in order, requiring a word boundary on both sides, and
on a match emits `repl` and resumes after the matched word (non-overlapping
matches).  `prevW` records whether the character before the current position
is a word character (false at the start of the string). -/

/-- Does some word of `ws` (tried in order) match at the head of `s` with a
word boundary on both sides, `prevW` being the word-character status of the
preceding character?  Returns the matched word. -/
def findBWord (ws : List Str) (prevW : Bool) (s : Str) : Option Str :=
  ws.find? (fun w =>
    !w.isEmpty && !prevW && w.isPrefixOf s &&
      (match s.drop w.length with
       | [] => true
       | c :: _ => !isWordChar c))

/-- Fuel-driven scan for `re.sub(r'\b(...)\b', repl, s)`.  Each step consumes
at least one character, so `s.length` fuel suffices. -/
def subWBAux (ws : List Str) (repl : Str) : Nat → Bool → Str → Str
  | 0, _, s => s
  | _ + 1, _, [] => []
  | fuel + 1, prevW, c :: t =>
    match findBWord ws prevW (c :: t) with
    | some w => repl ++ subWBAux ws repl fuel true ((c :: t).drop w.length)
    | none => c :: subWBAux ws repl fuel (isWordChar c) t

/-- `re.sub(r'\b(w1|...|wn)\b', repl, s)` for all-letter alternatives. -/
def subWB (ws : List Str) (repl : Str) (s : Str) : Str :=
  subWBAux ws repl (s.length + 1) false s

/-- The modifier words removed by `find_food` (line 37 of the source). -/
def modifierWords : List Str :=
  [chars "with", chars "and", chars "of", chars "small", chars "large",
   chars "medium", chars "boiled", chars "fried", chars "grilled",
   chars "cooked", chars "raw", chars "baked", chars "steamed"]

/-- The meal-label words of `extract_foods_with_quantities` (line 105). -/
def mealWords : List Str :=
  [chars "breakfast", chars "lunch", chars "dinner", chars "snack",
   chars "morning", chars "afternoon", chars "evening"]

/-- Does some meal word match at the head of `s` (word boundary before,
then the word, then a literal `:` and a greedy whitespace run)?  Returns the
number of characters consumed.  Embeds one match attempt of
`re.sub(r'\b(breakfast|...|evening):\s*', '\n', text)`. -/
def findMealLabel (prevW : Bool) (s : Str) : Option Nat :=
  (mealWords.find? (fun w =>
    !prevW && w.isPrefixOf s &&
      (match s.drop w.length with
       | ':' :: _ => true
       | _ => false))).map
    (fun w => w.length + 1 + ((s.drop (w.length + 1)).takeWhile isWs).length)

/-- Fuel-driven scan for the meal-label substitution. -/
def subMealAux : Nat → Bool → Str → Str
  | 0, _, s => s
  | _ + 1, _, [] => []
  | fuel + 1, prevW, c :: t =>
    match findMealLabel prevW (c :: t) with
    | some n => '\n' :: subMealAux fuel false ((c :: t).drop n)
    | none => c :: subMealAux fuel (isWordChar c) t

/-- `re.sub(r'\b(breakfast|...|evening):\s*', '\n', text)`. -/
def subMeal (s : Str) : Str := subMealAux (s.length + 1) false s

/-! ### Search index construction (`CleanFoodMatcher.__init__`, lines 21-30)

The source builds `search_index` and `exact_matches` in one pass over the
rows; since the two dicts never interact, they are embedded as two folds over
the same row list. -/

/-- `self.search_index[name] = row['display_name']` for every row, where
`name` is the lowercased display name. -/
def searchIndex (db : List Row) : Str → Option Str :=
  db.foldl (fun si r => dset si (lowerStr r.display_name) r.display_name)
    emptyDict

/-- The whitespace-split words of a row's lowercased display name. -/
def wordsOf (r : Row) : List Str := splitWs (lowerStr r.display_name)

/-- The body of the word loop: insert `word -> display_name` when the word is
longer than 2 characters and either absent from the dict or the food's
(lowercased) name is a single word. -/
def insWord (name rname : Str) (em : Str → Option Str) (w : Str) :
    Str → Option Str :=
  if 2 < w.length ∧ (em w = none ∨ (splitWs name).length = 1) then
    dset em w rname
  else em

/-- `self.exact_matches` after the constructor loop. -/
def exactMatches (db : List Row) : Str → Option Str :=
  db.foldl
    (fun em r => (wordsOf r).foldl (insWord (lowerStr r.display_name) r.display_name) em)
    emptyDict

/-! ### Name resolver (`find_food`, lines 32-98) -/

/-- Lines 34-38: lowercase and strip the query, remove modifier words with a
word-boundary substitution, then collapse whitespace runs and strip
(`re.sub(r'\s+', ' ', query).strip()` equals rejoining the words). -/
def normalizeQuery (query : Str) : Str :=
  joinWords (splitWs (subWB modifierWords (chars " ") (strip (lowerStr query))))

/-- Line 58: `all(word in display_lower for word in words)`. -/
def allWordsContained (q dl : Str) : Bool :=
  (splitWs q).all (fun w => decide (w <:+: dl))

/-- Lines 53-61, the phrase-matching tier: the first display name for which
every word of the query is a substring of the lowercased name and the whole
query is a substring of the lowercased name. -/
def tier3 (db : List Row) (q : Str) : Option Str :=
  if 1 < (splitWs q).length then
    (db.find? (fun r =>
      allWordsContained q (lowerStr r.display_name) &&
        decide (q <:+: lowerStr r.display_name))).map (·.display_name)
  else none

/-- One candidate of the single-word-matching tier: a query word together
with a table row whose lowercased name contains it. -/
structure Cand where
  word : Str
  row : Row
deriving DecidableEq

/-- Lines 67-71: the candidates scanned by the single-word tier, in loop
order (query words outer, table rows inner), keeping only words longer than
2 characters and rows whose lowercased name contains the word. -/
def cands (db : List Row) (q : Str) : List Cand :=
  ((splitWs q).filter (fun w => 2 < w.length)).flatMap (fun w =>
    (db.filter (fun r => decide (w <:+: lowerStr r.display_name))).map
      (fun r => ⟨w, r⟩))

/-- Lines 72-84: the score of a candidate; `nw` is the number of words of
the query. -/
def scoreC (nw : Nat) (c : Cand) : ℚ :=
  qsub
    (qadd
      (qadd (Rat.divInt 1 2)
        (if c.word.isPrefixOf (lowerStr c.row.display_name) then
          Rat.divInt 3 10 else 0))
      (qmul (c.word.length : ℚ) (Rat.divInt 1 20)))
    (if 1 < (splitWs c.row.display_name).length ∧ nw = 1 then
      Rat.divInt 1 5 else 0)

/-- Lines 86-88: keep the candidate only on a strictly greater score. -/
def updBest (nw : Nat) (bs : Option Str × ℚ) (c : Cand) : Option Str × ℚ :=
  if bs.2 < scoreC nw c then (some c.row.display_name, scoreC nw c) else bs

/-- Lines 63-88: the single-word tier; returns `(best_match, best_score)`. -/
def tier4run (db : List Row) (q : Str) : Option Str × ℚ :=
  (cands db q).foldl (updBest (splitWs q).length) (none, 0)

/-! ### `difflib.SequenceMatcher(None, a, b).ratio()`

For the short strings involved autojunk never triggers, so
`find_longest_match` returns the longest common run inside the window,
tie-broken by the smallest start in `a` and then the smallest start in `b`
(the order in which the scan of the source first attains the maximum). -/

/-- Length of the common prefix of two strings. -/
def commonLen : Str → Str → Nat
  | a :: as, b :: bs => if a = b then commonLen as bs + 1 else 0
  | _, _ => 0

/-- Length of the common run of `a` and `b` starting at `(i, j)`, truncated
to the window ends `ahi`, `bhi`. -/
def matchLenAt (a b : Str) (ahi bhi i j : Nat) : Nat :=
  min (commonLen (a.drop i) (b.drop j)) (min (ahi - i) (bhi - j))

/-- `SequenceMatcher.find_longest_match` on the window
`a[alo:ahi] × b[blo:bhi]` (no junk): `(besti, bestj, bestsize)`. -/
def flm (a b : Str) (alo ahi blo bhi : Nat) : Nat × Nat × Nat :=
  ((List.range' alo (ahi - alo)).flatMap (fun i =>
      (List.range' blo (bhi - blo)).map (fun j => (i, j)))).foldl
    (fun best ij =>
      let k := matchLenAt a b ahi bhi ij.1 ij.2
      if best.2.2 < k then (ij.1, ij.2, k) else best)
    (alo, blo, 0)

/-- Total size of the matching blocks (`get_matching_blocks` recursion).
Each recursive call strictly shrinks the window, so fuel
`(ahi - alo) + (bhi - blo) + 1` suffices. -/
def totalMatchAux (a b : Str) : Nat → Nat → Nat → Nat → Nat → Nat
  | 0, _, _, _, _ => 0
  | fuel + 1, alo, ahi, blo, bhi =>
    match flm a b alo ahi blo bhi with
    | (i, j, k) =>
      if k = 0 then 0
      else totalMatchAux a b fuel alo i blo j + k +
        totalMatchAux a b fuel (i + k) ahi (j + k) bhi

/-- `SequenceMatcher(None, a, b).ratio()` as a rational:
`2 * M / (len(a) + len(b))` (and `1.0` when both are empty). -/
def seqRatio (a b : Str) : ℚ :=
  let m := totalMatchAux a b (a.length + b.length + 1) 0 a.length 0 b.length
  if a.length + b.length = 0 then 1
  else qdiv ((2 * m : Nat) : ℚ) ((a.length + b.length : Nat) : ℚ)

/-- Lines 92-96, the loop body of the fuzzy tier: replace the best candidate
when the similarity ratio strictly exceeds the current best score and is at
least 0.7. -/
def fuzzyStep (q : Str) (bs : Option Str × ℚ) (r : Row) : Option Str × ℚ :=
  let sc := seqRatio q (lowerStr r.display_name)
  if bs.2 < sc ∧ Rat.divInt 7 10 ≤ sc then (some r.display_name, sc) else bs

/-- Lines 63-98: the single-word tier followed by the fuzzy fallback, which
is entered only when the best score so far is below 0.7. -/
def tier45 (db : List Row) (q : Str) : Option Str :=
  let br := tier4run db q
  if br.2 < Rat.divInt 7 10 then (db.foldl (fuzzyStep q) br).1 else br.1

/-- `find_food` (lines 32-98): normalization followed by the tier cascade,
returning at the first tier that produces a name. -/
def find_food (db : List Row) (query : Str) : Option Str :=
  let q := normalizeQuery query
  match searchIndex db q with
  | some n => some n
  | none =>
    match exactMatches db q with
    | some n => some n
    | none =>
      match db.find? (fun r => decide (lowerStr r.display_name = q)) with
      | some r => some r.display_name
      | none =>
        match tier3 db q with
        | some n => some n
        | none => tier45 db q

/-! ### Segmenter and quantity extractor
(`extract_foods_with_quantities`, lines 100-174)

Each of the five quantity patterns is
`(\d+(?:\.\d+)?)` then (for the unit patterns) `\s*` and a unit alternation,
then `\s+(.+)`.  `re.search` takes the leftmost match; at a given start the
digit run and the whitespace runs are effectively greedy-maximal (the
following construct can never consume a digit or, respectively, match a
whitespace character), the optional fraction and the unit alternation
backtrack in order, and `\s+` gives back one character to `(.+)` only when
the tail is all whitespace. -/

/-- Match `\s+(.+)` against `rest`: the greedy whitespace run followed by a
nonempty remainder for the food group. -/
def wsFood (rest : Str) : Option Str :=
  let wp := rest.takeWhile isWs
  if wp.isEmpty then none
  else
    let f := rest.drop wp.length
    if !f.isEmpty then some f
    else if 2 ≤ wp.length then some (rest.drop (wp.length - 1))
    else none

/-- Match a unit alternation (alternatives in regex order) preceded by `\s*`
and followed by `\s+(.+)` against `rest`. -/
def unitFood (alts : List Str) (rest : Str) : Option Str :=
  let rest1 := rest.dropWhile isWs
  (alts.filterMap (fun alt =>
    if alt.isPrefixOf rest1 then wsFood (rest1.drop alt.length) else none)).head?

/-- One match attempt of a quantity pattern at the current position:
the digit run, the optional fraction (tried greedily first), then the unit
part (`none` for the bare-number pattern).  Returns (number text, food text).
-/
def tryQtyAt (alts : Option (List Str)) (s : Str) : Option (Str × Str) :=
  let ds := s.takeWhile (·.isDigit)
  if ds.isEmpty then none
  else
    let r0 := s.drop ds.length
    let numRests : List (Str × Str) :=
      (match r0 with
       | '.' :: r1 =>
         let fds := r1.takeWhile (·.isDigit)
         if fds.isEmpty then [] else [(ds ++ '.' :: fds, r1.drop fds.length)]
       | _ => []) ++ [(ds, r0)]
    (numRests.filterMap (fun nr =>
      (match alts with
       | some us => unitFood us nr.2
       | none => wsFood nr.2).map (fun f => (nr.1, f)))).head?

/-- `re.search` for a quantity pattern: try every start position from the
left, first success wins. -/
def searchQty (alts : Option (List Str)) : Str → Option (Str × Str)
  | [] => none
  | c :: t =>
    match tryQtyAt alts (c :: t) with
    | some r => some r
    | none => searchQty alts t

/-- `float` applied to the matched number group (digits with an optional
decimal fraction). -/
def digitsVal (s : Str) : Nat := s.foldl (fun n c => 10 * n + (c.toNat - 48)) 0

/-- Parse the number group as a rational. -/
def parseQty (s : Str) : ℚ :=
  let ip := s.takeWhile (· ≠ '.')
  let fp := s.drop (ip.length + 1)
  qadd ((digitsVal ip : Nat) : ℚ) (qdiv ((digitsVal fp : Nat) : ℚ) ((10 ^ fp.length : Nat) : ℚ))

/-- Lines 118-124: the five quantity patterns in priority order, each with
its unit alternatives (in regex alternation order) and bound unit name. -/
def qtyPatterns : List (Option (List Str) × Str) :=
  [(some [chars "cups", chars "cup"], chars "cup"),
   (some [chars "slices", chars "slice"], chars "slice"),
   (some [chars "bowls", chars "bowl"], chars "bowl"),
   (some [chars "tbsp", chars "tablespoons", chars "tablespoon"], chars "tbsp"),
   (none, chars "count")]

/-- Lines 126-154: try the patterns in order; a pattern counts as matched
only when its food text also resolves (`matched = True` is set inside
`if food_name:`), otherwise the next pattern is tried. -/
def firstPatternMention (db : List Row) (seg : Str) :
    List (Option (List Str) × Str) → Option Mention
  | [] => none
  | (alts, u) :: rest =>
    match searchQty alts seg with
    | some (num, food) =>
      match find_food db food with
      | some name => some ⟨name, parseQty num, u, strip food⟩
      | none => firstPatternMention db seg rest
    | none => firstPatternMention db seg rest

/-- Lines 117-172 for one segment: the pattern loop, then the fallback
resolution of the whole segment with quantity 1.0 and unit `serving`. -/
def candidateOfSegment (db : List Row) (seg : Str) : Option Mention :=
  match firstPatternMention db seg qtyPatterns with
  | some m => some m
  | none =>
    match find_food db seg with
    | some name => some ⟨name, 1, chars "serving", strip seg⟩
    | none => none

/-- Lines 112-172, the per-segment step: strip, skip segments shorter than 3
characters, and append the segment's mention unless a mention for the same
food is already present. -/
def extractStep (db : List Row) (foods : List Mention) (seg0 : Str) :
    List Mention :=
  let seg := strip seg0
  if seg.length < 3 then foods
  else
    match candidateOfSegment db seg with
    | none => foods
    | some m =>
      if foods.any (fun e => decide (e.food = m.food)) then foods
      else foods ++ [m]

/-- `extract_foods_with_quantities` (lines 100-174). -/
def extract_foods_with_quantities (db : List Row) (text : Str) :
    List Mention :=
  let t0 := strip (lowerStr text)
  let t1 := subMeal t0
  let t2 := subWB [chars "with", chars "and"] (chars ",") t1
  (splitDelims t2).foldl (extractStep db) []

/-! ### Nutrient aggregation (`get_nutrition_data`, lines 176-216) -/

/-- Python's `round` at one decimal: round half to even on the scaled value.
(The source rounds binary floats; the embedding rounds exact rationals.) -/
def round1 (x : ℚ) : ℚ :=
  let y := qmul ((10 : Nat) : ℚ) x
  let f := y.floor
  let num2 := 2 * (y.num - f * (y.den : Int))
  Rat.divInt
    (if num2 < (y.den : Int) then f
     else if (y.den : Int) < num2 then f + 1
     else if f % 2 = 0 then f else f + 1) 10

/-- Lines 186-212: the nutrition record of one resolved mention against its
table row, with the unit multiplier chain of lines 192-203. -/
def mkRec (row : Row) (m : Mention) : NutRecord :=
  let multiplier := qmul m.quantity
    (if m.unit = chars "cup" then Rat.divInt 3 2
     else if m.unit = chars "slice" then Rat.divInt 3 10
     else if m.unit = chars "bowl" then Rat.divInt 2 1
     else if m.unit = chars "tbsp" then Rat.divInt 3 20
     else if m.unit = chars "serving" then 1
     else 1)
  { food := m.food,
    quantity := (m.quantity, m.unit),
    calories := round1 (qmul row.calories_per_100g multiplier),
    protein := round1 (qmul row.protein_g multiplier),
    carbs := round1 (qmul row.carbs_g multiplier),
    fat := round1 (qmul row.fat_g multiplier) }

/-- `get_nutrition_data` (lines 176-216): look each mention's food up in the
table (`self.db[self.db['display_name'] == food_name]`, first row of the
selection); misses go to the `unknown_foods` list as the mention's original
text. -/
def get_nutrition_data (db : List Row) : List Mention →
    List NutRecord × List Str
  | [] => ([], [])
  | m :: rest =>
    let p := get_nutrition_data db rest
    match db.find? (fun r => decide (r.display_name = m.food)) with
    | some row => (mkRec row m :: p.1, p.2)
    | none => (p.1, m.original_text :: p.2)

/-! ### Characterizing the search index -/

/-- The display name of the last row of the list whose lowercased name is
`w` (dict overwrite semantics of `search_index`). -/
def lastName (w : Str) : List Row → Option Str
  | [] => none
  | r :: t =>
    match lastName w t with
    | some n => some n
    | none => if lowerStr r.display_name = w then some r.display_name else none

theorem dset_same (m : Str → Option Str) (k v : Str) : dset m k v k = some v := by
  simp [dset]

theorem dset_other (m : Str → Option Str) (k v x : Str) (h : x ≠ k) :
    dset m k v x = m x := by
  simp [dset, h]

/-- Fold characterization of `search_index`: the last row with the given
lowercased name wins, otherwise the initial dict answers. -/
theorem siFold_char (l : List Row) (m0 : Str → Option Str) (w : Str) :
    (l.foldl (fun si r => dset si (lowerStr r.display_name) r.display_name) m0) w =
      match lastName w l with
      | some n => some n
      | none => m0 w := by
  induction l generalizing m0 with
  | nil => simp [lastName]
  | cons r t ih =>
    simp only [List.foldl_cons, ih, lastName]
    cases h : lastName w t with
    | some n => simp
    | none =>
      by_cases hw : lowerStr r.display_name = w
      · subst hw; simp [dset_same]
      · simp [hw, dset_other _ _ _ _ (Ne.symm hw)]

theorem searchIndex_char (db : List Row) (w : Str) :
    searchIndex db w =
      match lastName w db with
      | some n => some n
      | none => none := by
  simpa [searchIndex, emptyDict] using siFold_char db emptyDict w

/-- Soundness of `lastName`: it returns the display name of a member row
whose lowercased name is `w`. -/
theorem lastName_mem (w : Str) (l : List Row) (n : Str)
    (h : lastName w l = some n) :
    ∃ r, r ∈ l ∧ r.display_name = n ∧ lowerStr r.display_name = w := by
  induction l with
  | nil => simp [lastName] at h
  | cons r t ih =>
    simp only [lastName] at h
    cases ht : lastName w t with
    | some m =>
      rw [ht] at h
      obtain ⟨r', hr', hn, hw⟩ := ih (ht.trans (by simpa using h))
      exact ⟨r', List.mem_cons_of_mem _ hr', hn, hw⟩
    | none =>
      rw [ht] at h
      by_cases hw : lowerStr r.display_name = w
      · simp [hw] at h
        exact ⟨r, List.mem_cons_self r t, h, hw⟩
      · simp [hw] at h

/-- Completeness of `lastName`: a member row with lowercased name `w` makes
it return something. -/
theorem lastName_isSome (w : Str) (l : List Row) (r : Row) (hr : r ∈ l)
    (hw : lowerStr r.display_name = w) : (lastName w l).isSome := by
  induction l with
  | nil => simp at hr
  | cons s t ih =>
    rcases List.mem_cons.mp hr with h | h
    · subst h
      simp only [lastName]
      cases ht : lastName w t with
      | some n => simp
      | none => simp [hw]
    · simp only [lastName]
      cases ht : lastName w t with
      | some n => simp
      | none => have := ih h; rw [ht] at this; simp at this

/-! ### Characterizing the word index (`exact_matches`) -/

/-- The display name of the last row of the list whose lowercased name
splits into exactly the word `w` (with `w` longer than 2 characters): such
rows always overwrite the word's slot. -/
def lastSingle (w : Str) : List Row → Option Str
  | [] => none
  | r :: t =>
    match lastSingle w t with
    | some n => some n
    | none =>
      if 2 < w.length ∧ wordsOf r = [w] then some r.display_name else none

/-- The display name of the first row of the list whose lowercased name
contains `w` as a word (with `w` longer than 2 characters): the first such
row claims a free slot. -/
def firstWith (w : Str) : List Row → Option Str
  | [] => none
  | r :: t =>
    if 2 < w.length ∧ w ∈ wordsOf r then some r.display_name
    else firstWith w t

/-- Effect of one row's word loop on one key of the dict. -/
theorem insWordFold_char (ws : List Str) (name rname : Str)
    (em : Str → Option Str) (w : Str) :
    (ws.foldl (insWord name rname) em) w =
      if w ∈ ws ∧ 2 < w.length ∧
          (em w = none ∨ (splitWs name).length = 1) then some rname
      else em w := by
  induction ws generalizing em with
  | nil => simp
  | cons u t ih =>
    simp only [List.foldl_cons, ih]
    by_cases huw : u = w
    · subst huw
      by_cases hc : 2 < u.length ∧ (em u = none ∨ (splitWs name).length = 1)
      · rw [insWord, if_pos hc]
        have hset := dset_same em u rname
        by_cases hmem : u ∈ t
        · rcases hc with ⟨hlen, hor⟩
          by_cases hone : (splitWs name).length = 1
          · simp [hmem, hlen, hone, hset]
          · have hnone := hor.resolve_right hone
            simp [hmem, hlen, hone, hset, hnone]
        · simp [hmem, hc, hset]
      · rw [insWord, if_neg hc]
        by_cases hmem : u ∈ t
        · simp [hmem, hc]
        · simp [hmem, hc]
    · have hkey : insWord name rname em u w = em w := by
        rw [insWord]
        by_cases hcond : 2 < u.length ∧ (em u = none ∨ (splitWs name).length = 1)
        · rw [if_pos hcond, dset_other _ _ _ _ (fun h => huw h.symm)]
        · rw [if_neg hcond]
      rw [hkey]
      have hmm : (w ∈ u :: t) ↔ (w ∈ t) := by
        simp only [List.mem_cons, or_iff_right_iff_imp]
        intro h
        exact absurd h.symm huw
      by_cases hmem : w ∈ t
      · simp [hmm, hmem]
      · simp [hmm, hmem]

/-- Full characterization of `exact_matches` at one key: the last single-word
food with that word always wins; otherwise an earlier binding survives;
otherwise the first food containing the word claims the slot. -/
theorem emFold_char (l : List Row) (em : Str → Option Str) (w : Str) :
    (l.foldl
      (fun em r =>
        (wordsOf r).foldl (insWord (lowerStr r.display_name) r.display_name) em)
      em) w =
      match lastSingle w l with
      | some n => some n
      | none =>
        match em w with
        | some v => some v
        | none => firstWith w l := by
  induction l generalizing em with
  | nil =>
    cases h : em w <;> simp [lastSingle, firstWith, h]
  | cons r t ih =>
    simp only [List.foldl_cons, ih]
    have hrow :
        ((wordsOf r).foldl (insWord (lowerStr r.display_name) r.display_name) em) w =
          if w ∈ wordsOf r ∧ 2 < w.length ∧
              (em w = none ∨ (wordsOf r).length = 1)
          then some r.display_name else em w := by
      simpa [wordsOf] using
        insWordFold_char (wordsOf r) (lowerStr r.display_name) r.display_name em w
    rw [hrow]
    cases hls : lastSingle w t with
    | some n => simp [lastSingle, hls]
    | none =>
      by_cases hsw : 2 < w.length ∧ wordsOf r = [w]
      · have hcond : w ∈ wordsOf r ∧ 2 < w.length ∧
            (em w = none ∨ (wordsOf r).length = 1) := by
          refine ⟨by rw [hsw.2]; exact List.mem_singleton.mpr rfl, hsw.1, Or.inr ?_⟩
          rw [hsw.2]
          rfl
        simp [lastSingle, hls, hsw, hcond]
      · by_cases hin : 2 < w.length ∧ w ∈ wordsOf r
        · have hnotone : (wordsOf r).length ≠ 1 := by
            intro h1
            rcases List.length_eq_one.mp h1 with ⟨a, ha⟩
            apply hsw
            refine ⟨hin.1, ?_⟩
            rw [ha]
            rw [ha] at hin
            rcases List.mem_singleton.mp hin.2 with h
            rw [h]
          cases hem : em w with
          | some v =>
            have hnc : ¬(w ∈ wordsOf r ∧ 2 < w.length ∧
                (em w = none ∨ (wordsOf r).length = 1)) := by
              rintro ⟨-, -, h | h⟩
              · rw [hem] at h; exact Option.noConfusion h
              · exact hnotone h
            simp [lastSingle, hls, hsw, hnc, hem, hnotone]
          | none =>
            have hc : w ∈ wordsOf r ∧ 2 < w.length ∧
                (em w = none ∨ (wordsOf r).length = 1) :=
              ⟨hin.2, hin.1, Or.inl hem⟩
            have hne : wordsOf r ≠ [w] := fun h => hsw ⟨hin.1, h⟩
            simp [lastSingle, firstWith, hls, hsw, hc, hem, hin, hne]
        · have hnc : ¬(w ∈ wordsOf r ∧ 2 < w.length ∧
              (em w = none ∨ (wordsOf r).length = 1)) := by
            rintro ⟨h1, h2, -⟩
            exact hin ⟨h2, h1⟩
          simp [lastSingle, firstWith, hls, hsw, hnc, hin]

/-- The characterization specialized to the built index. -/
theorem exactMatches_char (db : List Row) (w : Str) :
    exactMatches db w =
      match lastSingle w db with
      | some n => some n
      | none => firstWith w db := by
  have := emFold_char db emptyDict w
  rw [exactMatches] at *
  cases h : lastSingle w db <;> simpa [h, emptyDict] using this

theorem lastSingle_mem (w : Str) (l : List Row) (n : Str)
    (h : lastSingle w l = some n) :
    ∃ r, r ∈ l ∧ r.display_name = n ∧ wordsOf r = [w] := by
  induction l with
  | nil => simp [lastSingle] at h
  | cons r t ih =>
    simp only [lastSingle] at h
    cases ht : lastSingle w t with
    | some m =>
      rw [ht] at h
      obtain ⟨r', hr', hn, hw⟩ := ih (ht.trans (by simpa using h))
      exact ⟨r', List.mem_cons_of_mem _ hr', hn, hw⟩
    | none =>
      rw [ht] at h
      by_cases hc : 2 < w.length ∧ wordsOf r = [w]
      · rw [if_pos hc] at h
        exact ⟨r, List.mem_cons_self r t, by simpa using h, hc.2⟩
      · rw [if_neg hc] at h
        exact Option.noConfusion h

theorem lastSingle_isSome (w : Str) (l : List Row) (r : Row) (hr : r ∈ l)
    (hlen : 2 < w.length) (hw : wordsOf r = [w]) :
    (lastSingle w l).isSome := by
  induction l with
  | nil => simp at hr
  | cons s t ih =>
    simp only [lastSingle]
    cases ht : lastSingle w t with
    | some n => simp
    | none =>
      rcases List.mem_cons.mp hr with h | h
      · subst h; simp [hlen, hw]
      · have := ih h; rw [ht] at this; simp at this

theorem lastSingle_eq_none (w : Str) (l : List Row)
    (h : ∀ r, r ∈ l → wordsOf r ≠ [w]) : lastSingle w l = none := by
  induction l with
  | nil => rfl
  | cons r t ih =>
    simp only [lastSingle]
    rw [ih (fun r' hr' => h r' (List.mem_cons_of_mem _ hr'))]
    simp [h r (List.mem_cons_self r t)]

theorem firstWith_mem (w : Str) (l : List Row) (n : Str)
    (h : firstWith w l = some n) :
    ∃ r, r ∈ l ∧ r.display_name = n ∧ w ∈ wordsOf r := by
  induction l with
  | nil => simp [firstWith] at h
  | cons r t ih =>
    simp only [firstWith] at h
    by_cases hc : 2 < w.length ∧ w ∈ wordsOf r
    · rw [if_pos hc] at h
      exact ⟨r, List.mem_cons_self r t, by simpa using h, hc.2⟩
    · rw [if_neg hc] at h
      obtain ⟨r', hr', hn, hw⟩ := ih h
      exact ⟨r', List.mem_cons_of_mem _ hr', hn, hw⟩

theorem firstWith_eq_find (w : Str) (hlen : 2 < w.length) (l : List Row) :
    firstWith w l =
      (l.find? (fun r => decide (w ∈ wordsOf r))).map (·.display_name) := by
  induction l with
  | nil => rfl
  | cons r t ih =>
    simp only [firstWith, List.find?_cons]
    by_cases hc : w ∈ wordsOf r
    · simp [hc, hlen]
    · simp [hc, hlen, ih]

/-- Concrete reference rows shared by the concrete-input theorems below. -/
def riceRow : Row := ⟨chars "Rice", 200, 10, 30, 5⟩

def brownRiceRow : Row := ⟨chars "Brown Rice", 110, 2, 23, 1⟩

def riceDb : List Row := [riceRow]

def appleDb : List Row := [⟨chars "Apple", 52, 0, 14, 0⟩]

/-- C6: after building the search index, a word longer than 2 characters that
occurs as a whole single-word food name wins the `exact_matches` slot for
that word no matter where the rows sit in the table (first conjunct; the
uniqueness hypothesis rules out two distinct single-word foods with the same
lowercased name), and when no single-word food carries the word, the
first-seen food containing it wins (second conjunct). -/
theorem c6_word_index_priority (db : List Row) (w : Str) (hw : 2 < w.length) :
    (∀ s, s ∈ db → wordsOf s = [w] →
      (∀ t, t ∈ db → wordsOf t = [w] → t.display_name = s.display_name) →
      (∃ m, m ∈ db ∧ w ∈ wordsOf m ∧ 1 < (wordsOf m).length) →
      exactMatches db w = some s.display_name)
    ∧ ((∀ r, r ∈ db → wordsOf r ≠ [w]) →
      exactMatches db w =
        (db.find? (fun r => decide (w ∈ wordsOf r))).map (·.display_name)) := by
  constructor
  · intro s hs hws huniq hmulti
    rw [exactMatches_char]
    obtain ⟨n, hn⟩ :=
      Option.isSome_iff_exists.mp (lastSingle_isSome w db s hs hw hws)
    obtain ⟨r, hr, hrn, hrw⟩ := lastSingle_mem w db n hn
    rw [hn]
    show some n = some s.display_name
    rw [← hrn]
    exact congrArg some (huniq r hr hrw)
  · intro hnone
    rw [exactMatches_char, lastSingle_eq_none w db hnone,
      firstWith_eq_find w hw db]

/-- C6 witness: with both "Rice" and "Brown Rice" present, in either row
order, the word-index entry for "rice" resolves to "Rice". -/
theorem c6_word_index_priority_witness :
    exactMatches [brownRiceRow, riceRow] (chars "rice") = some (chars "Rice") ∧
    exactMatches [riceRow, brownRiceRow] (chars "rice") = some (chars "Rice") := by
  constructor
  · exact (c6_word_index_priority [brownRiceRow, riceRow] (chars "rice")
      (by decide)).1 riceRow (by decide) (by decide) (by decide) (by decide)
  · exact (c6_word_index_priority [riceRow, brownRiceRow] (chars "rice")
      (by decide)).1 riceRow (by decide) (by decide) (by decide) (by decide)

/-- C7: a fragment whose normalized form equals the lowercased full name of a
table row (unique among the rows' lowercased names) resolves to that row's
canonical name: the exact full-name tier answers before the word-index,
scored-substring and fuzzy tiers are ever consulted, whatever the rest of the
table holds. -/
theorem c7_exact_full_name_wins (db : List Row) (q : Str) (row : Row)
    (hmem : row ∈ db)
    (heq : lowerStr row.display_name = normalizeQuery q)
    (huniq : ∀ t, t ∈ db →
      lowerStr t.display_name = lowerStr row.display_name →
      t.display_name = row.display_name) :
    find_food db q = some row.display_name := by
  have hsi : searchIndex db (normalizeQuery q) = some row.display_name := by
    rw [searchIndex_char]
    obtain ⟨n, hn⟩ := Option.isSome_iff_exists.mp
      (lastName_isSome (normalizeQuery q) db row hmem heq)
    obtain ⟨r, hr, hrn, hrw⟩ := lastName_mem _ db n hn
    rw [hn]
    show some n = some row.display_name
    rw [← hrn]
    exact congrArg some (huniq r hr (by rw [hrw, ← heq]))
  simp only [find_food, hsi]

/-- C7 witness: the query "Rice" (an exact full-name match up to case)
resolves to "Rice" in the one-row table. -/
theorem c7_exact_full_name_wins_witness :
    find_food riceDb (chars "Rice") = some (chars "Rice") :=
  c7_exact_full_name_wins riceDb (chars "Rice") riceRow (by decide) (by decide)
    (by decide)

/-- Every word produced by `str.split()` is a contiguous substring of the
original string (accumulator-generalized form). -/
theorem splitWsAcc_word_sub :
    ∀ (s acc w : Str), w ∈ splitWsAcc acc s → w <:+: (acc.reverse ++ s)
  | [], acc, w => by
    by_cases h : acc = ([] : Str)
    · simp [splitWsAcc, h]
    · intro hm
      rw [splitWsAcc, if_neg h] at hm
      rcases List.mem_singleton.mp hm with rfl
      simp
  | c :: t, acc, w => by
    intro hm
    rw [splitWsAcc] at hm
    by_cases hw : isWs c = true
    · rw [if_pos hw] at hm
      by_cases h : acc = ([] : Str)
      · rw [if_pos h] at hm
        subst h
        have := splitWsAcc_word_sub t [] w hm
        simp only [List.reverse_nil, List.nil_append] at this ⊢
        exact this.trans (List.suffix_cons c t).isInfix
      · rw [if_neg h] at hm
        rcases List.mem_cons.mp hm with rfl | hm'
        · exact ⟨[], c :: t, by simp⟩
        · have := splitWsAcc_word_sub t [] w hm'
          simp only [List.reverse_nil, List.nil_append] at this
          exact this.trans
            ((List.suffix_cons c t).trans (List.suffix_append _ _)).isInfix
    · rw [if_neg hw] at hm
      have := splitWsAcc_word_sub t (c :: acc) w hm
      simpa [List.append_assoc] using this

/-- Every word of `splitWs s` is a contiguous substring of `s`. -/
theorem splitWs_word_sub (w s : Str) (h : w ∈ splitWs s) : w <:+: s := by
  simpa using splitWsAcc_word_sub s [] w h

/-- C4 (amended): at the phrase tier the resolver returns the first canonical
name whose lowercased form contains the whole normalized fragment as a
contiguous substring; the every-word-containment test adds nothing (a name
containing the fragment contains each word), and a name containing every word
but not the contiguous fragment is never selected at this tier — the fragment
falls through to the later tiers instead. -/
theorem c4_phrase_tier_contiguous (db : List Row) (q : Str) :
    tier3 db q =
      if 1 < (splitWs q).length then
        (db.find? (fun r => decide (q <:+: lowerStr r.display_name))).map
          (·.display_name)
      else none := by
  rw [tier3]
  by_cases h : 1 < (splitWs q).length
  · rw [if_pos h, if_pos h]
    have hpred : (fun r => allWordsContained q (lowerStr r.display_name) &&
        decide (q <:+: lowerStr r.display_name)) =
        (fun r : Row => decide (q <:+: lowerStr r.display_name)) := by
      funext r
      by_cases hq : q <:+: lowerStr r.display_name
      · have hall : allWordsContained q (lowerStr r.display_name) = true := by
          rw [allWordsContained, List.all_eq_true]
          intro w hw
          exact decide_eq_true ((splitWs_word_sub w q hw).trans hq)
        simp [hall, hq]
      · simp [hq]
    rw [hpred]
  · rw [if_neg h, if_neg h]

/-- Rows for the C4 counterexample. -/
def milkshakeRow : Row := ⟨chars "Milkshake Deluxe", 0, 0, 0, 0⟩

def milkRiceRow : Row := ⟨chars "Milk Rice", 0, 0, 0, 0⟩

def db4 : List Row := [milkshakeRow, milkRiceRow]

/-- C4 counterexample: the normalized fragment "rice milk" has 2 words and
fails all the exact tiers; the table's "Milk Rice" contains every word of the
fragment as a substring; yet the resolver returns "Milkshake Deluxe", which
does not contain every word — so the phrase tier does not return an
all-words-containing name when the contiguous fragment is absent. -/
theorem c4_counterexample :
    1 < (splitWs (normalizeQuery (chars "rice milk"))).length ∧
    searchIndex db4 (normalizeQuery (chars "rice milk")) = none ∧
    exactMatches db4 (normalizeQuery (chars "rice milk")) = none ∧
    db4.find? (fun r =>
      decide (lowerStr r.display_name = normalizeQuery (chars "rice milk"))) =
      none ∧
    (∃ r, r ∈ db4 ∧ ∀ w ∈ splitWs (normalizeQuery (chars "rice milk")),
      w <:+: lowerStr r.display_name) ∧
    find_food db4 (chars "rice milk") = some (chars "Milkshake Deluxe") ∧
    ¬ (∀ w ∈ splitWs (normalizeQuery (chars "rice milk")),
        w <:+: lowerStr (chars "Milkshake Deluxe")) := by
  exact ⟨by decide, by decide, by decide, by decide, by decide, by decide,
    by decide⟩

/-! ### The fuzzy tier rejects all-low-similarity tables (C5) -/

/-- Once the single-word tier holds a candidate it never loses it. -/
theorem foldUpd_isSome (nw : Nat) (l : List Cand) (a : Option Str × ℚ)
    (h : a.1.isSome) : ((l.foldl (updBest nw) a).1).isSome := by
  induction l generalizing a with
  | nil => exact h
  | cons c t ih =>
    simp only [List.foldl_cons]
    apply ih
    rw [updBest]
    by_cases hc : a.2 < scoreC nw c
    · rw [if_pos hc]; rfl
    · rw [if_neg hc]; exact h

/-- If the single-word tier ends with no candidate, its state never moved. -/
theorem foldUpd_none (nw : Nat) (l : List Cand) (a : Option Str × ℚ)
    (h : (l.foldl (updBest nw) a).1 = none) : l.foldl (updBest nw) a = a := by
  induction l generalizing a with
  | nil => rfl
  | cons c t ih =>
    simp only [List.foldl_cons] at h ⊢
    by_cases hc : a.2 < scoreC nw c
    · exfalso
      have : ((t.foldl (updBest nw) (updBest nw a c)).1).isSome := by
        apply foldUpd_isSome
        rw [updBest, if_pos hc]
        rfl
      rw [h] at this
      simp at this
    · have hstep : updBest nw a c = a := by rw [updBest, if_neg hc]
      rw [hstep] at h ⊢
      exact ih a h

/-- If every row's similarity ratio is below 0.7, the fuzzy loop never
updates the empty state. -/
theorem fuzzy_all_below (q : Str) (db : List Row)
    (h : ∀ r, r ∈ db → seqRatio q (lowerStr r.display_name) < Rat.divInt 7 10) :
    db.foldl (fuzzyStep q) (none, 0) = (none, 0) := by
  induction db with
  | nil => rfl
  | cons r t ih =>
    simp only [List.foldl_cons]
    have hstep : fuzzyStep q (none, 0) r = (none, 0) := by
      rw [fuzzyStep]
      rw [if_neg]
      rintro ⟨-, hge⟩
      exact absurd (h r (List.mem_cons_self r t)) (not_lt.mpr hge)
    rw [hstep]
    exact ih (fun r' hr' => h r' (List.mem_cons_of_mem _ hr'))

/-- C5: when the exact, word, full-name and phrase tiers fail, the
single-word tier finds no candidate, and the fragment's similarity ratio is
below 0.7 against every canonical name, resolution fails rather than
returning a low-confidence guess. -/
theorem c5_fuzzy_bound (db : List Row) (q : Str)
    (h1 : searchIndex db (normalizeQuery q) = none)
    (h2 : exactMatches db (normalizeQuery q) = none)
    (h3 : db.find? (fun r =>
      decide (lowerStr r.display_name = normalizeQuery q)) = none)
    (h4 : tier3 db (normalizeQuery q) = none)
    (h5 : (tier4run db (normalizeQuery q)).1 = none)
    (h6 : ∀ r, r ∈ db →
      seqRatio (normalizeQuery q) (lowerStr r.display_name) <
        Rat.divInt 7 10) :
    find_food db q = none := by
  have h40 : tier4run db (normalizeQuery q) = (none, 0) :=
    foldUpd_none _ _ _ h5
  have htier : tier45 db (normalizeQuery q) = none := by
    rw [tier45, h40]
    rw [if_pos (by decide : (0 : ℚ) < Rat.divInt 7 10)]
    rw [fuzzy_all_below _ _ h6]
  simp only [find_food, h1, h2, h3, h4, htier]

/-- C5 witness: "zzzz" against the one-row apple table (ratio 0 < 0.7)
resolves to nothing. -/
theorem c5_fuzzy_bound_witness : find_food appleDb (chars "zzzz") = none :=
  c5_fuzzy_bound appleDb (chars "zzzz") (by decide) (by decide) (by decide)
    (by decide) (by decide) (by decide)

/-! ### Every resolver answer is a table display name (C3) -/

theorem searchIndex_mem (db : List Row) (w n : Str)
    (h : searchIndex db w = some n) : ∃ r, r ∈ db ∧ n = r.display_name := by
  rw [searchIndex_char] at h
  cases hl : lastName w db with
  | some m =>
    rw [hl] at h
    obtain ⟨r, hr, hrn, -⟩ := lastName_mem w db m hl
    exact ⟨r, hr, by simpa [hrn] using h.symm⟩
  | none => rw [hl] at h; exact absurd h (by simp)

theorem exactMatches_mem (db : List Row) (w n : Str)
    (h : exactMatches db w = some n) : ∃ r, r ∈ db ∧ n = r.display_name := by
  rw [exactMatches_char] at h
  cases hl : lastSingle w db with
  | some m =>
    rw [hl] at h
    obtain ⟨r, hr, hrn, -⟩ := lastSingle_mem w db m hl
    exact ⟨r, hr, by simpa [hrn] using h.symm⟩
  | none =>
    rw [hl] at h
    obtain ⟨r, hr, hrn, -⟩ := firstWith_mem w db n (by simpa using h)
    exact ⟨r, hr, hrn.symm⟩

theorem tier3_mem (db : List Row) (q n : Str) (h : tier3 db q = some n) :
    ∃ r, r ∈ db ∧ n = r.display_name := by
  rw [tier3] at h
  by_cases hl : 1 < (splitWs q).length
  · rw [if_pos hl] at h
    cases hf : db.find? (fun r =>
        allWordsContained q (lowerStr r.display_name) &&
          decide (q <:+: lowerStr r.display_name)) with
    | some r =>
      rw [hf] at h
      exact ⟨r, List.mem_of_find?_eq_some hf, by simpa using h.symm⟩
    | none => rw [hf] at h; exact absurd h (by simp)
  · rw [if_neg hl] at h; exact absurd h (by simp)

theorem cands_row_mem (db : List Row) (q : Str) (c : Cand)
    (h : c ∈ cands db q) : c.row ∈ db := by
  rw [cands] at h
  obtain ⟨w, -, hc⟩ := List.mem_flatMap.mp h
  obtain ⟨r, hr, heq⟩ := List.mem_map.mp hc
  rw [← heq]
  exact (List.mem_filter.mp hr).1

theorem foldUpd_mem (db : List Row) (nw : Nat) (l : List Cand)
    (a : Option Str × ℚ) (n : Str)
    (hl : ∀ c, c ∈ l → c.row ∈ db)
    (ha : ∀ m, a.1 = some m → ∃ r, r ∈ db ∧ m = r.display_name)
    (h : (l.foldl (updBest nw) a).1 = some n) :
    ∃ r, r ∈ db ∧ n = r.display_name := by
  induction l generalizing a with
  | nil => exact ha n h
  | cons c t ih =>
    simp only [List.foldl_cons] at h
    refine ih _ (fun c' hc' => hl c' (List.mem_cons_of_mem _ hc')) ?_ h
    intro m hm
    rw [updBest] at hm
    by_cases hc : a.2 < scoreC nw c
    · rw [if_pos hc] at hm
      exact ⟨c.row, hl c (List.mem_cons_self c t), by simpa using hm.symm⟩
    · rw [if_neg hc] at hm
      exact ha m hm

theorem foldFuzzy_mem (db : List Row) (q : Str) (l : List Row)
    (a : Option Str × ℚ) (n : Str)
    (hl : ∀ r, r ∈ l → r ∈ db)
    (ha : ∀ m, a.1 = some m → ∃ r, r ∈ db ∧ m = r.display_name)
    (h : (l.foldl (fuzzyStep q) a).1 = some n) :
    ∃ r, r ∈ db ∧ n = r.display_name := by
  induction l generalizing a with
  | nil => exact ha n h
  | cons r t ih =>
    simp only [List.foldl_cons] at h
    refine ih _ (fun r' hr' => hl r' (List.mem_cons_of_mem _ hr')) ?_ h
    intro m hm
    rw [fuzzyStep] at hm
    by_cases hc : a.2 < seqRatio q (lowerStr r.display_name) ∧
        Rat.divInt 7 10 ≤ seqRatio q (lowerStr r.display_name)
    · rw [if_pos hc] at hm
      exact ⟨r, hl r (List.mem_cons_self r t), by simpa using hm.symm⟩
    · rw [if_neg hc] at hm
      exact ha m hm

theorem tier45_mem (db : List Row) (q n : Str) (h : tier45 db q = some n) :
    ∃ r, r ∈ db ∧ n = r.display_name := by
  rw [tier45] at h
  by_cases hc : (tier4run db q).2 < Rat.divInt 7 10
  · rw [if_pos hc] at h
    refine foldFuzzy_mem db q db (tier4run db q) n (fun r hr => hr) ?_ h
    intro m hm
    exact foldUpd_mem db (splitWs q).length (cands db q) (none, 0) m
      (fun c hc' => cands_row_mem db q c hc') (by simp) hm
  · rw [if_neg hc] at h
    exact foldUpd_mem db (splitWs q).length (cands db q) (none, 0) n
      (fun c hc' => cands_row_mem db q c hc') (by simp) h

/-- Every name `find_food` returns is the display name of a table row. -/
theorem find_food_mem (db : List Row) (q n : Str)
    (h : find_food db q = some n) : ∃ r, r ∈ db ∧ n = r.display_name := by
  simp only [find_food] at h
  cases h1 : searchIndex db (normalizeQuery q) with
  | some m =>
    rw [h1] at h
    exact searchIndex_mem db _ n (h1.trans (by simpa using h))
  | none =>
    rw [h1] at h
    cases h2 : exactMatches db (normalizeQuery q) with
    | some m =>
      rw [h2] at h
      exact exactMatches_mem db _ n (h2.trans (by simpa using h))
    | none =>
      rw [h2] at h
      cases h3 : db.find? (fun r =>
          decide (lowerStr r.display_name = normalizeQuery q)) with
      | some r =>
        rw [h3] at h
        exact ⟨r, List.mem_of_find?_eq_some h3, by simpa using h.symm⟩
      | none =>
        rw [h3] at h
        cases h4 : tier3 db (normalizeQuery q) with
        | some m =>
          rw [h4] at h
          exact tier3_mem db _ n (h4.trans (by simpa using h))
        | none =>
          rw [h4] at h
          exact tier45_mem db _ n h

/-! ### Invariants of the extractor (C2, C3) -/

/-- Any property of the mentions produced per segment is a property of every
mention in the extractor's output. -/
theorem extractFold_inv (P : Mention → Prop) (db : List Row)
    (hcand : ∀ seg m, candidateOfSegment db seg = some m → P m) :
    ∀ (segs : List Str) (acc : List Mention),
      (∀ m, m ∈ acc → P m) →
      ∀ m, m ∈ segs.foldl (extractStep db) acc → P m := by
  intro segs
  induction segs with
  | nil => exact fun acc hacc m hm => hacc m hm
  | cons seg t ih =>
    intro acc hacc m hm
    simp only [List.foldl_cons] at hm
    refine ih _ ?_ m hm
    intro m' hm'
    rw [extractStep] at hm'
    by_cases hlen : (strip seg).length < 3
    · rw [if_pos hlen] at hm'; exact hacc m' hm'
    · rw [if_neg hlen] at hm'
      cases hc : candidateOfSegment db (strip seg) with
      | none => rw [hc] at hm'; exact hacc m' hm'
      | some m0 =>
        rw [hc] at hm'
        dsimp only at hm'
        by_cases hdup : acc.any (fun e => decide (e.food = m0.food)) = true
        · rw [if_pos hdup] at hm'; exact hacc m' hm'
        · rw [if_neg hdup] at hm'
          rcases List.mem_append.mp hm' with h | h
          · exact hacc m' h
          · have hm0 : m' = m0 := List.mem_singleton.mp h
            rw [hm0]
            exact hcand _ m0 hc

/-- Shape of the mention produced by one pattern-loop pass. -/
theorem firstPatternMention_shape (db : List Row) (seg : Str)
    (pats : List (Option (List Str) × Str)) (m : Mention)
    (h : firstPatternMention db seg pats = some m) :
    ∃ alts u num food, (alts, u) ∈ pats ∧ searchQty alts seg = some (num, food) ∧
      find_food db food = some m.food ∧
      m.quantity = parseQty num ∧ m.unit = u := by
  induction pats with
  | nil => exact absurd h (by simp [firstPatternMention])
  | cons p rest ih =>
    obtain ⟨alts, u⟩ := p
    rw [firstPatternMention] at h
    cases hs : searchQty alts seg with
    | some nf =>
      obtain ⟨num, food⟩ := nf
      rw [hs] at h
      dsimp only at h
      cases hf : find_food db food with
      | some name =>
        rw [hf] at h
        rcases Option.some_injective _ h with rfl
        exact ⟨alts, u, num, food, List.mem_cons_self _ _, hs,
          by simpa using hf, rfl, rfl⟩
      | none =>
        rw [hf] at h
        obtain ⟨a', u', n', f', hp, hrest⟩ := ih h
        exact ⟨a', u', n', f', List.mem_cons_of_mem _ hp, hrest⟩
    | none =>
      rw [hs] at h
      dsimp only at h
      obtain ⟨a', u', n', f', hp, hrest⟩ := ih h
      exact ⟨a', u', n', f', List.mem_cons_of_mem _ hp, hrest⟩

/-- Shape of the mention produced for one segment: a quantity-pattern match
with a resolving food text, or the whole-segment fallback. -/
theorem candidate_shape (db : List Row) (seg : Str) (m : Mention)
    (h : candidateOfSegment db seg = some m) :
    (∃ alts u num food, (alts, u) ∈ qtyPatterns ∧
      searchQty alts seg = some (num, food) ∧
      find_food db food = some m.food ∧
      m.quantity = parseQty num ∧ m.unit = u) ∨
    (find_food db seg = some m.food ∧ m.quantity = 1 ∧
      m.unit = chars "serving") := by
  rw [candidateOfSegment] at h
  cases hp : firstPatternMention db seg qtyPatterns with
  | some m0 =>
    rw [hp] at h
    rcases Option.some_injective _ h with rfl
    exact Or.inl (firstPatternMention_shape db seg qtyPatterns m0 hp)
  | none =>
    rw [hp] at h
    cases hf : find_food db seg with
    | some name =>
      rw [hf] at h
      rcases Option.some_injective _ h with rfl
      exact Or.inr ⟨by simp [hf], rfl, rfl⟩
    | none => rw [hf] at h; exact absurd h (by simp)

/-- The closed set of units of the data model. -/
def unitsList : List Str :=
  [chars "cup", chars "slice", chars "bowl", chars "tbsp", chars "count",
   chars "serving"]

/-- Parsed quantities are sums of nonnegative terms. -/
theorem parseQty_nonneg (s : Str) : 0 ≤ parseQty s := by
  rw [parseQty, qadd_eq, qdiv_eq]
  positivity

/-- C3: every mention the extractor returns carries a `matched_food` that is,
character for character, the display name of some row of the reference
table. -/
theorem c3_matched_food_in_table (db : List Row) (text : Str) :
    ∀ m, m ∈ extract_foods_with_quantities db text →
      ∃ r, r ∈ db ∧ m.food = r.display_name := by
  intro m hm
  rw [extract_foods_with_quantities] at hm
  refine extractFold_inv (fun m => ∃ r, r ∈ db ∧ m.food = r.display_name) db
    ?_ _ [] (by simp) m hm
  intro seg m0 hc
  rcases candidate_shape db seg m0 hc with
    ⟨alts, u, num, food, -, -, hf, -, -⟩ | ⟨hf, -, -⟩
  · exact find_food_mem db food m0.food hf
  · exact find_food_mem db seg m0.food hf

set_option maxRecDepth 40000 in
/-- C3 witness at the concrete input "1 cup rice". -/
theorem c3_matched_food_in_table_witness :
    ∃ r, r ∈ riceDb ∧
      (⟨chars "Rice", 1, chars "cup", chars "rice"⟩ : Mention).food =
        r.display_name :=
  c3_matched_food_in_table riceDb (chars "1 cup rice")
    ⟨chars "Rice", 1, chars "cup", chars "rice"⟩ (by decide)

/-- C2 (amended): every mention the extractor returns has a nonnegative
quantity (1.0 for the fallback) and a unit from the closed set; strict
positivity fails because a literal "0" quantity is accepted (see the
counterexample). -/
theorem c2_quantity_nonneg_unit_closed (db : List Row) (text : Str) :
    ∀ m, m ∈ extract_foods_with_quantities db text →
      0 ≤ m.quantity ∧ m.unit ∈ unitsList := by
  intro m hm
  rw [extract_foods_with_quantities] at hm
  refine extractFold_inv (fun m => 0 ≤ m.quantity ∧ m.unit ∈ unitsList) db
    ?_ _ [] (by simp) m hm
  intro seg m0 hc
  rcases candidate_shape db seg m0 hc with
    ⟨alts, u, num, food, hp, -, -, hq, hu⟩ | ⟨-, hq, hu⟩
  · constructor
    · rw [hq]; exact parseQty_nonneg num
    · rw [hu]
      have : ∀ p, p ∈ qtyPatterns → p.2 ∈ unitsList := by decide
      exact this (alts, u) hp
  · rw [hq, hu]
    exact ⟨by norm_num, by decide⟩

set_option maxRecDepth 40000 in
/-- C2 witness at the concrete input "1 cup rice". -/
theorem c2_quantity_nonneg_unit_closed_witness :
    0 ≤ (⟨chars "Rice", 1, chars "cup", chars "rice"⟩ : Mention).quantity ∧
      (⟨chars "Rice", 1, chars "cup", chars "rice"⟩ : Mention).unit ∈
        unitsList :=
  c2_quantity_nonneg_unit_closed riceDb (chars "1 cup rice")
    ⟨chars "Rice", 1, chars "cup", chars "rice"⟩ (by decide)

set_option maxRecDepth 40000 in
/-- C2 counterexample: the segment "0 cup rice" matches the cup pattern with
the digit string "0", so the extractor emits a mention with quantity 0 —
quantities are not strictly positive. -/
theorem c2_counterexample :
    ∃ m, m ∈ extract_foods_with_quantities riceDb (chars "0 cup rice") ∧
      ¬ (0 < m.quantity) :=
  ⟨⟨chars "Rice", 0, chars "cup", chars "rice"⟩, by decide, by decide⟩

/-! ### Deduplication (C9) -/

/-- The extractor's fold preserves pairwise distinctness of foods: a mention
is appended only when no mention with the same food is present. -/
theorem extractFold_pairwise (db : List Row) :
    ∀ (segs : List Str) (acc : List Mention),
      acc.Pairwise (fun a b => a.food ≠ b.food) →
      (segs.foldl (extractStep db) acc).Pairwise (fun a b => a.food ≠ b.food) := by
  intro segs
  induction segs with
  | nil => exact fun acc h => h
  | cons seg t ih =>
    intro acc hacc
    simp only [List.foldl_cons]
    apply ih
    rw [extractStep]
    by_cases hlen : (strip seg).length < 3
    · rw [if_pos hlen]; exact hacc
    · rw [if_neg hlen]
      cases hc : candidateOfSegment db (strip seg) with
      | none => exact hacc
      | some m0 =>
        dsimp only
        by_cases hdup : acc.any (fun e => decide (e.food = m0.food)) = true
        · rw [if_pos hdup]; exact hacc
        · rw [if_neg hdup]
          rw [List.pairwise_append]
          refine ⟨hacc, List.pairwise_singleton _ _, ?_⟩
          intro a ha b hb
          rcases List.mem_singleton.mp hb with rfl
          simp only [List.any_eq_true, decide_eq_true_eq, not_exists,
            not_and] at hdup
          exact fun hfe => hdup a ha hfe

set_option maxRecDepth 40000 in
/-- C9: within one extraction call at most one mention per distinct food
survives (pairwise distinct foods, for every input and table), and on the
concrete input "1 cup rice, 2 bowls rice" the first occurrence — with its
quantity and unit — is kept while the later one is dropped, not merged. -/
theorem c9_dedup_first_kept :
    (∀ (db : List Row) (text : Str),
      (extract_foods_with_quantities db text).Pairwise
        (fun a b => a.food ≠ b.food)) ∧
    extract_foods_with_quantities riceDb (chars "1 cup rice, 2 bowls rice") =
      [⟨chars "Rice", 1, chars "cup", chars "rice"⟩] := by
  constructor
  · intro db text
    rw [extract_foods_with_quantities]
    exact extractFold_pairwise db _ [] (by simp)
  · decide

set_option maxRecDepth 40000 in
/-- C9 witness: the pairwise-distinct-foods invariant instantiated at the
concrete input of the second conjunct. -/
theorem c9_dedup_first_kept_witness :
    (extract_foods_with_quantities riceDb
      (chars "1 cup rice, 2 bowls rice")).Pairwise
        (fun a b => a.food ≠ b.food) :=
  c9_dedup_first_kept.1 riceDb (chars "1 cup rice, 2 bowls rice")

/-! ### Scan-order tie-breaking at the scored-substring tier (C10) -/

theorem cands_word_len (db : List Row) (q : Str) (c : Cand)
    (h : c ∈ cands db q) : 2 < c.word.length := by
  rw [cands] at h
  obtain ⟨w, hw, hc⟩ := List.mem_flatMap.mp h
  obtain ⟨r, hr, heq⟩ := List.mem_map.mp hc
  have hlen := (List.mem_filter.mp hw).2
  rw [← heq]
  simpa using hlen

/-- The candidate score written with the field operations of `ℚ`. -/
theorem scoreC_eq (nw : Nat) (c : Cand) :
    scoreC nw c = 1/2 +
      (if c.word.isPrefixOf (lowerStr c.row.display_name) then (3:ℚ)/10
        else 0) +
      (c.word.length : ℚ) * (1/20) -
      (if 1 < (splitWs c.row.display_name).length ∧ nw = 1 then (1:ℚ)/5
        else 0) := by
  rw [scoreC, qsub_eq, qadd_eq, qadd_eq, qmul_eq]
  norm_num [Rat.divInt_eq_div]

/-- Matching candidates score at least 0.45, in particular above the fold's
initial score 0. -/
theorem scoreC_lb (nw : Nat) (c : Cand) (hlen : 2 < c.word.length) :
    (9:ℚ)/20 ≤ scoreC nw c := by
  rw [scoreC_eq]
  have h3 : (3:ℚ) ≤ (c.word.length : ℚ) := by exact_mod_cast hlen
  split_ifs <;> linarith

/-- A state whose score already dominates the remaining candidates is final. -/
theorem foldUpd_stable (nw : Nat) :
    ∀ (l : List Cand) (a : Option Str × ℚ),
      (∀ d, d ∈ l → scoreC nw d ≤ a.2) →
      l.foldl (updBest nw) a = a := by
  intro l
  induction l with
  | nil => exact fun a _ => rfl
  | cons d t ih =>
    intro a ha
    simp only [List.foldl_cons]
    have hstep : updBest nw a d = a := by
      rw [updBest, if_neg (not_lt.mpr (ha d (List.mem_cons_self d t)))]
    rw [hstep]
    exact ih a (fun d' hd' => ha d' (List.mem_cons_of_mem _ hd'))

/-- The strict-improvement fold returns the first candidate that attains the
maximal score: candidates before it (all scoring strictly less) leave the
state below the maximum, the first maximal candidate takes the state, and no
later candidate can strictly exceed it. -/
theorem foldUpd_first_max (nw : Nat) :
    ∀ (l1 : List Cand) (c : Cand) (l2 : List Cand) (b : Option Str × ℚ),
      b.2 < scoreC nw c →
      (∀ d, d ∈ l1 → scoreC nw d < scoreC nw c) →
      (∀ d, d ∈ l1 ++ c :: l2 → scoreC nw d ≤ scoreC nw c) →
      (l1 ++ c :: l2).foldl (updBest nw) b =
        (some c.row.display_name, scoreC nw c) := by
  intro l1
  induction l1 with
  | nil =>
    intro c l2 b hb hbefore hmax
    simp only [List.nil_append, List.foldl_cons]
    have hstep : updBest nw b c = (some c.row.display_name, scoreC nw c) := by
      rw [updBest, if_pos hb]
    rw [hstep]
    exact foldUpd_stable nw l2 _ (fun d hd =>
      hmax d (List.mem_cons_of_mem c hd))
  | cons d t ih =>
    intro c l2 b hb hbefore hmax
    simp only [List.cons_append, List.foldl_cons]
    have hd : scoreC nw d < scoreC nw c := hbefore d (List.mem_cons_self d t)
    have hb' : (updBest nw b d).2 < scoreC nw c := by
      rw [updBest]
      by_cases hcnd : b.2 < scoreC nw d
      · rw [if_pos hcnd]; exact hd
      · rw [if_neg hcnd]; exact hb
    exact ih c l2 _ hb'
      (fun d' hd' => hbefore d' (List.mem_cons_of_mem _ hd'))
      (fun d' hd' => hmax d' (List.mem_cons_of_mem _ hd'))

/-- C10: at the scored-substring tier the running best is replaced only on a
strictly greater score, so the tier returns the first candidate (in scan
order: fragment words outer, table rows inner) attaining the maximal score —
in particular ties go to the earlier candidate. -/
theorem c10_scan_order_tie_break (db : List Row) (q : Str)
    (l1 l2 : List Cand) (c : Cand)
    (hdec : cands db q = l1 ++ c :: l2)
    (hbefore : ∀ d, d ∈ l1 →
      scoreC (splitWs q).length d < scoreC (splitWs q).length c)
    (hmax : ∀ d, d ∈ cands db q →
      scoreC (splitWs q).length d ≤ scoreC (splitWs q).length c) :
    (tier4run db q).1 = some c.row.display_name := by
  have hc : c ∈ cands db q := by
    rw [hdec]
    exact List.mem_append_right _ (List.mem_cons_self _ _)
  have hpos : ((none, 0) : Option Str × ℚ).2 <
      scoreC (splitWs q).length c :=
    lt_of_lt_of_le (by norm_num)
      (scoreC_lb _ c (cands_word_len db q c hc))
  rw [tier4run, hdec, foldUpd_first_max (splitWs q).length l1 c l2 (none, 0)
    hpos hbefore (by rw [← hdec]; exact hmax)]

/-- Rows for the C10 witness. -/
def ricexRow : Row := ⟨chars "Ricex", 0, 0, 0, 0⟩

def milkxRow : Row := ⟨chars "Milkx", 0, 0, 0, 0⟩

def db10 : List Row := [ricexRow, milkxRow]

/-- C10 witness: for "rice milk" both candidates score 1.0; the tier returns
"Ricex", generated first (from the earlier fragment word). -/
theorem c10_scan_order_tie_break_witness :
    (tier4run db10 (chars "rice milk")).1 = some (chars "Ricex") :=
  c10_scan_order_tie_break db10 (chars "rice milk") []
    [⟨chars "milk", milkxRow⟩] ⟨chars "rice", ricexRow⟩
    (by decide) (by decide) (by decide)

/-! ### Unit multipliers and rounding (C8) -/

/-- The per-unit portion factor of the specification table
(cup 1.5, slice 0.3, bowl 2.0, tbsp 0.15, serving 1.0, count 1.0). -/
def unitFactor (u : Str) : ℚ :=
  if u = chars "cup" then 3/2
  else if u = chars "slice" then 3/10
  else if u = chars "bowl" then 2
  else if u = chars "tbsp" then 3/20
  else if u = chars "serving" then 1
  else 1

/-- The aggregator's record written with the specification's factor table. -/
theorem mkRec_eq (row : Row) (m : Mention) :
    mkRec row m =
      { food := m.food, quantity := (m.quantity, m.unit),
        calories := round1 (row.calories_per_100g *
          (m.quantity * unitFactor m.unit)),
        protein := round1 (row.protein_g * (m.quantity * unitFactor m.unit)),
        carbs := round1 (row.carbs_g * (m.quantity * unitFactor m.unit)),
        fat := round1 (row.fat_g * (m.quantity * unitFactor m.unit)) } := by
  rw [mkRec, unitFactor]
  simp only [qmul_eq]
  norm_num [Rat.divInt_eq_div]

set_option maxRecDepth 40000 in
/-- C8: each nutrient of a resolved mention's record is the per-100g value
times quantity times the unit factor, rounded to one decimal; concretely,
with calories_per_100g = 200 the input "1 cup rice" yields calories
200 × 1 × 1.5 = 300.0. -/
theorem c8_multiplier_rounding :
    (∀ (db : List Row) (ms : List Mention) (m : Mention) (row : Row),
      m ∈ ms →
      db.find? (fun r => decide (r.display_name = m.food)) = some row →
      ({ food := m.food, quantity := (m.quantity, m.unit),
         calories := round1 (row.calories_per_100g *
           (m.quantity * unitFactor m.unit)),
         protein := round1 (row.protein_g * (m.quantity * unitFactor m.unit)),
         carbs := round1 (row.carbs_g * (m.quantity * unitFactor m.unit)),
         fat := round1 (row.fat_g * (m.quantity * unitFactor m.unit)) } :
           NutRecord) ∈ (get_nutrition_data db ms).1) ∧
    get_nutrition_data riceDb
        (extract_foods_with_quantities riceDb (chars "1 cup rice")) =
      ([⟨chars "Rice", (1, chars "cup"), 300, 15, 45, Rat.divInt 15 2⟩],
        []) := by
  constructor
  · intro db ms m row hm hfind
    induction ms with
    | nil => simp at hm
    | cons m0 rest ih =>
      rw [get_nutrition_data]
      rcases List.mem_cons.mp hm with heq | hm'
      · rw [← heq, hfind]
        dsimp only
        rw [← mkRec_eq]
        exact List.mem_cons_self _ _
      · cases hf0 : db.find? (fun r => decide (r.display_name = m0.food)) with
        | some row0 =>
          dsimp only
          exact List.mem_cons_of_mem _ (ih hm')
        | none =>
          dsimp only
          exact ih hm'
  · decide

set_option maxRecDepth 40000 in
/-- C8 witness: the general statement applied to the one mention of
"1 cup rice" against the rice row. -/
theorem c8_multiplier_rounding_witness :
    ({ food := chars "Rice", quantity := ((1 : ℚ), chars "cup"),
       calories := round1 (200 * (1 * unitFactor (chars "cup"))),
       protein := round1 (10 * (1 * unitFactor (chars "cup"))),
       carbs := round1 (30 * (1 * unitFactor (chars "cup"))),
       fat := round1 (5 * (1 * unitFactor (chars "cup"))) } : NutRecord) ∈
      (get_nutrition_data riceDb
        [⟨chars "Rice", 1, chars "cup", chars "rice"⟩]).1 :=
  c8_multiplier_rounding.1 riceDb
    [⟨chars "Rice", 1, chars "cup", chars "rice"⟩]
    ⟨chars "Rice", 1, chars "cup", chars "rice"⟩ riceRow
    (by decide) (by decide)

set_option maxRecDepth 40000 in
/-- C1: for the input "quinoa with kale and tahini" against a table without
exact, word, phrase, substring or fuzzy-close entries for the three foods,
the extraction+aggregation pipeline returns zero nutrition records and —
contrary to the specification — ZERO unresolved fragments: segments whose
resolution fails are silently skipped inside
`extract_foods_with_quantities`, so `get_nutrition_data`'s unknown-foods
channel (which callers display as "Could not find nutrition data for: ...")
can never receive them. -/
theorem c1_unresolved_dropped :
    get_nutrition_data appleDb
        (extract_foods_with_quantities appleDb
          (chars "quinoa with kale and tahini")) = ([], []) := by
  decide
